import Mathlib

/-!
# FasterPinIO: dynamic access to AVR digital pins

A shallow embedding of `src/FasterPinIO.h` (class `FasterPinIO`, macros
`FPIO_IS_ATOMIC` and `FPIO_ATOMIC`) and of the static table declared in
`src/FasterPinIO.cpp`.

Conventions of the embedding.

* Machine integers are natural numbers.  A `byte` holds a value below 256, a
  pointer and a program-memory word a value below 65536, an `int` is the AVR
  16-bit signed integer.  A conversion to a narrower type is written out
  (`toByte`, `toPtr`, `toInt`) at every place where the source converts.
* `Arduino-GPIO/Board.h` is not part of the sources: its macros `GPIO_REG`,
  `GPIO_MASK` and its constant `GPIO_ATOMIC_MAX` are fields of `Target`.
* Data memory is a map from addresses to bytes; `struct gpio_register` is three
  consecutive bytes `pin`, `ddr`, `port` at offsets 0, 1 and 2.
* `SREG` is the status register, the byte of data memory at address `0x5F`;
  bit 7 is the global interrupt enable flag that the instruction `cli` clears.
  A handle whose register group lies at `0x5D` or `0x5E` has `SREG` as its
  output-state or direction register.
-/

namespace FasterPin

/-! ## Integer conversions of the AVR target -/

/-- Conversion of an integer value to `byte` (`uint8_t`): the low 8 bits. -/
def toByte (x : Nat) : Nat := x % 256

/-- Conversion of an integer value to a data pointer: the low 16 bits. -/
def toPtr (x : Nat) : Nat := x % 65536

/-- The cast `(int)(adrs)` of a pointer: the 16 bits read as a signed integer. -/
def toInt (x : Nat) : Int :=
  if x % 65536 < 32768 then ((x % 65536 : Nat) : Int) else ((x % 65536 : Nat) : Int) - 65536

/-- The expression `~b` of a `byte` operand `b`, stored back into a `byte`. -/
def complByte (b : Nat) : Nat := 255 - b % 256

/-! ## Build target: Board.h and the static members of the class -/

/-- What the build target fixes: the macros of `Board.h` and the two static
members `_io_pins` and `_pin_map` of the class.  `_pin_map k` is the program
memory word at `&_pin_map[k]`; the array itself is the words `0 .. _io_pins - 1`,
the words beyond it are whatever the linker placed after the array. -/
structure Target where
  /-- Macro `GPIO_REG(pin)`: address of the register group of a pin. -/
  GPIO_REG : Nat → Nat
  /-- Macro `GPIO_MASK(pin)`: mask of a pin within its register group. -/
  GPIO_MASK : Nat → Nat
  /-- Constant `GPIO_ATOMIC_MAX`. -/
  GPIO_ATOMIC_MAX : Nat
  /-- Member `static const byte _io_pins`. -/
  _io_pins : Nat
  /-- Member `static const BOARD::pin_t _pin_map[ _io_pins ] PROGMEM`. -/
  _pin_map : Nat → Nat
  /-- The type of `_io_pins` is `byte`. -/
  io_pins_byte : _io_pins < 256

/-- The call `pgm_read_word_near( &( _pin_map[ k ]))`. -/
def pgm_read_word_near (T : Target) (k : Nat) : Nat := T._pin_map k

/-! ## Machine state -/

/-- One executed read-modify-write of a register: the address written and the
value `SREG` had while the statement ran. -/
structure Access where
  adrs : Nat
  sreg : Nat
deriving DecidableEq, Repr

/-- Data address of the status register: `avr/io.h` defines `SREG` as
`_SFR_IO8(0x3F)`, which is the byte of data memory at `0x5F` on every family
the class supports. -/
def SREG_adrs : Nat := 0x5F

/-- The part of the machine the class touches: data memory, which holds the
status register too, and the history of read-modify-write statements executed
so far (oldest first). -/
structure Machine where
  mem : Nat → Nat
  history : List Access

/-- The value of the lvalue `SREG`. -/
def Machine.SREG (m : Machine) : Nat := m.mem SREG_adrs

/-- The assignment `SREG = v`. -/
def Machine.setSREG (m : Machine) (v : Nat) : Machine :=
  { m with mem := fun x => if x = SREG_adrs then v else m.mem x }

/-- Bit 7 of `SREG`, the global interrupt enable flag. -/
def Machine.interruptsEnabled (m : Machine) : Bool := m.SREG.testBit 7

/-- The instruction `cli`: clear the global interrupt enable flag. -/
def cli (m : Machine) : Machine := m.setSREG (m.SREG &&& 0x7F)

/-- A compound assignment `*a = f(*a)` on the byte at address `a`. -/
def rmw (a : Nat) (f : Nat → Nat) (m : Machine) : Machine :=
  { m with
    mem := fun x => if x = a then f (m.mem a) else m.mem x
    history := m.history ++ [⟨a, m.SREG⟩] }

/-! ## The atomic macros -/

/-- Macro `FPIO_IS_ATOMIC(adrs)`: `(((int)(adrs))<GPIO_REG(GPIO_ATOMIC_MAX))`. -/
def FPIO_IS_ATOMIC (T : Target) (adrs : Nat) : Bool :=
  decide (toInt adrs < (T.GPIO_REG T.GPIO_ATOMIC_MAX : Int))

/-- Macro `FPIO_ATOMIC(adrs,expr)`. -/
def FPIO_ATOMIC (T : Target) (adrs : Nat) (expr : Machine → Machine) (m : Machine) : Machine :=
  if FPIO_IS_ATOMIC T adrs then
    expr m
  else
    let sreg := m.SREG
    let m1 := cli m
    let m2 := expr m1
    m2.setSREG sreg

/-! ## The class -/

/-- The data members of a `FasterPinIO` object. -/
structure Handle where
  /-- Member `_port_adrs`: address of a `struct gpio_register`. -/
  _port_adrs : Nat
  /-- Member `_bit_set`. -/
  _bit_set : Nat
  /-- Member `_bit_unset`. -/
  _bit_unset : Nat
  /-- Member `_pin`. -/
  _pin : Nat
deriving DecidableEq, Repr

namespace Handle

/-- Address of `_port_adrs->pin`. -/
def pinAdrs (h : Handle) : Nat := h._port_adrs

/-- Address of `_port_adrs->ddr`. -/
def ddrAdrs (h : Handle) : Nat := h._port_adrs + 1

/-- Address of `_port_adrs->port`. -/
def portAdrs (h : Handle) : Nat := h._port_adrs + 2

end Handle

/-- Constructor `FasterPinIO( byte pin = 0 )` with the argument given. -/
def newByIndex (T : Target) (pin : Nat) : Handle :=
  let gpio := pgm_read_word_near T pin
  let _bit_set := toByte (T.GPIO_MASK gpio)
  { _pin := pin
    _port_adrs := toPtr (T.GPIO_REG gpio)
    _bit_set := _bit_set
    _bit_unset := complByte _bit_set }

/-- Constructor `FasterPinIO( byte pin = 0 )` with the argument defaulted. -/
def newDefault (T : Target) : Handle := newByIndex T 0

/-- The loop `for( ; _pin < _io_pins; _pin++ ) { if( pin == ... ) break; }`
entered with the given value of `_pin`; the result is `_pin` at loop exit. -/
def scanFrom (T : Target) (pin : Nat) (_pin : Nat) : Nat :=
  if _pin < T._io_pins then
    if pin = pgm_read_word_near T _pin then _pin
    else scanFrom T pin (toByte (_pin + 1))
  else _pin
termination_by T._io_pins - _pin
decreasing_by
  have := T.io_pins_byte
  simp only [toByte]
  omega

/-- Constructor `FasterPinIO( BOARD::pin_t pin )`. -/
def newByIdent (T : Target) (pin : Nat) : Handle :=
  let _pin := scanFrom T pin 0
  let _bit_set := toByte (T.GPIO_MASK pin)
  { _pin := _pin
    _port_adrs := toPtr (T.GPIO_REG pin)
    _bit_set := _bit_set
    _bit_unset := complByte _bit_set }

/-- Method `setPin( byte pin )`. -/
def setPinIndex (T : Target) (h : Handle) (pin : Nat) : Handle :=
  let gpio := pgm_read_word_near T pin
  let _bit_set := toByte (T.GPIO_MASK gpio)
  { h with
    _pin := pin
    _port_adrs := toPtr (T.GPIO_REG gpio)
    _bit_set := _bit_set
    _bit_unset := complByte _bit_set }

/-- Method `setPin( BOARD::pin_t pin )`. -/
def setPinIdent (T : Target) (h : Handle) (pin : Nat) : Handle :=
  let _pin := scanFrom T pin 0
  let _bit_set := toByte (T.GPIO_MASK pin)
  { h with
    _pin := _pin
    _port_adrs := toPtr (T.GPIO_REG pin)
    _bit_set := _bit_set
    _bit_unset := complByte _bit_set }

/-- Method `input()`: `FPIO_ATOMIC( _port_adrs, _port_adrs->ddr &= _bit_unset )`. -/
def input (T : Target) (h : Handle) : Machine → Machine :=
  FPIO_ATOMIC T h._port_adrs (rmw h.ddrAdrs (fun v => v &&& h._bit_unset))

/-- Method `output()`: `FPIO_ATOMIC( _port_adrs, _port_adrs->ddr |= _bit_set )`. -/
def output (T : Target) (h : Handle) : Machine → Machine :=
  FPIO_ATOMIC T h._port_adrs (rmw h.ddrAdrs (fun v => v ||| h._bit_set))

/-- Method `read()`: `( _port_adrs->pin & _bit_set ) != 0`. -/
def read (h : Handle) (m : Machine) : Bool :=
  decide (m.mem h.pinAdrs &&& h._bit_set ≠ 0)

/-- Method `low()`: `FPIO_ATOMIC( _port_adrs, _port_adrs->port &= _bit_unset )`. -/
def low (T : Target) (h : Handle) : Machine → Machine :=
  FPIO_ATOMIC T h._port_adrs (rmw h.portAdrs (fun v => v &&& h._bit_unset))

/-- Method `high()`: `FPIO_ATOMIC( _port_adrs, _port_adrs->port |= _bit_set )`. -/
def high (T : Target) (h : Handle) : Machine → Machine :=
  FPIO_ATOMIC T h._port_adrs (rmw h.portAdrs (fun v => v ||| h._bit_set))

/-- Method `write( bool val )`. -/
def write (T : Target) (h : Handle) (val : Bool) : Machine → Machine :=
  if val then high T h else low T h

/-- Method `toggle()`: `FPIO_ATOMIC( _port_adrs, _port_adrs->port ^= _bit_set )`. -/
def toggle (T : Target) (h : Handle) : Machine → Machine :=
  FPIO_ATOMIC T h._port_adrs (rmw h.portAdrs (fun v => v ^^^ h._bit_set))

/-- Method `pin()`. -/
def pin (h : Handle) : Nat := h._pin

/-! ## A concrete target for evaluation -/

/-- A small target on which the definitions can be evaluated: a pin identifier
is sixteen times the address of its register group plus its bit number, the
atomic range ends at address `0x40`, and the table has the three pins
`0x290`, `0x291`, `0x292` (bits 0, 1, 2 of the group at `0x29`). -/
def sampleTarget : Target where
  GPIO_REG := fun p => p / 16
  GPIO_MASK := fun p => 2 ^ (p % 16)
  GPIO_ATOMIC_MAX := 0x400
  _io_pins := 3
  _pin_map := fun k => [0x290, 0x291, 0x292].getD k 0
  io_pins_byte := by decide

/-- The handle bound to bit 0 of a register group placed at address `0x3F`,
the last address below the atomic limit of `sampleTarget`; this is the state
`FasterPinIO( BOARD::pin_t )` builds from the identifier `0x3F0`. -/
def straddlingHandle : Handle :=
  { _port_adrs := 0x3F, _bit_set := 1, _bit_unset := 254, _pin := 3 }

/-- A machine with `SREG = 0x80` (interrupts enabled), all other memory zero
and nothing executed. -/
def enabledMachine : Machine :=
  { mem := fun a => if a = 0x5F then 0x80 else 0, history := [] }

/-- A machine with all memory zero, `SREG` included (interrupts disabled), and
nothing executed. -/
def quietMachine : Machine :=
  { mem := fun _ => 0, history := [] }

/-- A target like `sampleTarget` whose atomic range ends at address `0x60`. -/
def wideTarget : Target where
  GPIO_REG := fun p => p / 16
  GPIO_MASK := fun p => 2 ^ (p % 16)
  GPIO_ATOMIC_MAX := 0x600
  _io_pins := 3
  _pin_map := fun k => [0x290, 0x291, 0x292].getD k 0
  io_pins_byte := by decide

/-- The handle bound to bit 7 of a register group placed at address `0x5D`,
whose output-state register is the byte at `0x5F`, that is `SREG`; this is the
state `FasterPinIO( BOARD::pin_t )` builds from the identifier `0x5D7`. -/
def statusHandle : Handle :=
  { _port_adrs := 0x5D, _bit_set := 0x80, _bit_unset := 0x7F, _pin := 3 }

/-- The handle of logical pin 0 of `sampleTarget`: bit 0 of the group at `0x29`. -/
def samplePin0 : Handle :=
  { _port_adrs := 0x29, _bit_set := 1, _bit_unset := 254, _pin := 0 }

/-- The handle of logical pin 1 of `sampleTarget`: bit 1 of the group at `0x29`. -/
def samplePin1 : Handle :=
  { _port_adrs := 0x29, _bit_set := 2, _bit_unset := 253, _pin := 1 }

/-- A machine whose three registers of the group at `0x29` hold `0xA5`, `0x0F`
and `0xF3`, with `SREG = 0x80` (interrupts enabled). -/
def busyMachine : Machine :=
  { mem := fun a =>
      if a = 0x29 then 0xA5 else if a = 0x2A then 0x0F else if a = 0x2B then 0xF3
      else if a = 0x5F then 0x80 else 0
    history := [] }

/-- A target like `sampleTarget` whose table repeats an identifier: positions
1 and 3 both hold `0x290`. -/
def repeatingTarget : Target where
  GPIO_REG := fun p => p / 16
  GPIO_MASK := fun p => 2 ^ (p % 16)
  GPIO_ATOMIC_MAX := 0x400
  _io_pins := 4
  _pin_map := fun k => [0x291, 0x290, 0x292, 0x290].getD k 0
  io_pins_byte := by decide

/-! ## Calls on an object -/

/-- The five methods that execute a read-modify-write. -/
inductive Op where
  | input
  | output
  | low
  | high
  | toggle
deriving DecidableEq, Repr

/-- The method an `Op` names, called on the object with members `h`. -/
def runOp (T : Target) (h : Handle) : Op → Machine → Machine
  | .input => input T h
  | .output => output T h
  | .low => low T h
  | .high => high T h
  | .toggle => toggle T h

/-- A call on an object of the class: a constructor (which replaces all
members) or a method. -/
inductive Call where
  /-- Constructor `FasterPinIO( byte pin )` with the argument given. -/
  | construct (pin : Nat)
  /-- Constructor `FasterPinIO( byte pin = 0 )` with the argument defaulted. -/
  | constructDefault
  /-- Constructor `FasterPinIO( BOARD::pin_t pin )`. -/
  | constructIdent (pin : Nat)
  /-- Method `setPin( byte pin )`. -/
  | setPin (pin : Nat)
  /-- Method `setPin( BOARD::pin_t pin )`. -/
  | setPinIdent (pin : Nat)
  /-- Methods `input()`, `output()`, `low()`, `high()`, `toggle()`. -/
  | modify (o : Op)
  /-- Method `read()`. -/
  | read
  /-- Method `write( bool val )`. -/
  | write (val : Bool)
  /-- Method `pin()`. -/
  | pin
deriving DecidableEq, Repr

/-- The members of the object and the machine after a call, from the members
and the machine before it.  The constructors and `setPin` assign members only;
the other methods assign no member. -/
def runCall (T : Target) : Call → Handle × Machine → Handle × Machine
  | .construct k, (_, m) => (newByIndex T k, m)
  | .constructDefault, (_, m) => (newDefault T, m)
  | .constructIdent p, (_, m) => (newByIdent T p, m)
  | .setPin k, (h, m) => (setPinIndex T h k, m)
  | .setPinIdent p, (h, m) => (setPinIdent T h p, m)
  | .modify o, (h, m) => (h, runOp T h o m)
  | .read, (h, m) => (h, m)
  | .write val, (h, m) => (h, write T h val m)
  | .pin, (h, m) => (h, m)

/-- The address of the register an `Op` modifies. -/
def opAdrs (h : Handle) : Op → Nat
  | .input => h.ddrAdrs
  | .output => h.ddrAdrs
  | .low => h.portAdrs
  | .high => h.portAdrs
  | .toggle => h.portAdrs

/-- The value an `Op` stores, from the value `v` it reads. -/
def opValue (h : Handle) : Op → Nat → Nat
  | .input => fun v => v &&& h._bit_unset
  | .output => fun v => v ||| h._bit_set
  | .low => fun v => v &&& h._bit_unset
  | .high => fun v => v ||| h._bit_set
  | .toggle => fun v => v ^^^ h._bit_set

/-- The two masks are bytes and every one of the 8 bits of `_bit_unset` is the
negation of the same bit of `_bit_set`. -/
def MasksComplementary (h : Handle) : Prop :=
  h._bit_set < 256 ∧ h._bit_unset < 256 ∧
  ∀ j, j < 8 → h._bit_unset.testBit j = !h._bit_set.testBit j

/-- A sequence of calls on one object, first call first. -/
def runCalls (T : Target) : List Call → Handle × Machine → Handle × Machine
  | [], s => s
  | c :: cs, s => runCalls T cs (runCall T c s)

/-- Whether the call is one of the two `setPin` overloads. -/
def isSetPin : Call → Bool
  | .setPin _ => true
  | .setPinIdent _ => true
  | _ => false

/-- Whether the call is a constructor. -/
def isConstructor : Call → Bool
  | .construct _ => true
  | .constructDefault => true
  | .constructIdent _ => true
  | _ => false

/-- The identifier occurs at a position of the table. -/
def inTable (T : Target) (p : Nat) : Prop := ∃ i, i < T._io_pins ∧ T._pin_map i = p

/-- The call binds with an argument the table covers: a logical index below
`_io_pins` (0 for the defaulted constructor) or an identifier in the table.
Calls that bind nothing have no condition. -/
def validCall (T : Target) : Call → Prop
  | .construct k => k < T._io_pins
  | .constructDefault => 0 < T._io_pins
  | .constructIdent p => inTable T p
  | .setPin k => k < T._io_pins
  | .setPinIdent p => inTable T p
  | _ => True

/-- Members that describe the pin of the current logical index: `_pin` is a
position of the table, and `_port_adrs` and `_bit_set` are `GPIO_REG` and
`GPIO_MASK` of the identifier at that position, as stored in the members. -/
def Consistent (T : Target) (h : Handle) : Prop :=
  h._pin < T._io_pins ∧
  h._port_adrs = toPtr (T.GPIO_REG (T._pin_map h._pin)) ∧
  h._bit_set = toByte (T.GPIO_MASK (T._pin_map h._pin))

/-- Several objects of the class, by number, and the machine they share. -/
structure World where
  objects : Nat → Handle
  machine : Machine

/-- A call on object number `who`. -/
def World.call (T : Target) (w : World) (who : Nat) (c : Call) : World :=
  let s := runCall T c (w.objects who, w.machine)
  { objects := fun k => if k = who then s.1 else w.objects k
    machine := s.2 }

/-- Two objects, number 0 bound to pin 0 and every other number to pin 1 of
`sampleTarget`, on `busyMachine`. -/
def sampleWorld : World :=
  { objects := fun k => if k = 0 then samplePin0 else samplePin1
    machine := busyMachine }

/-! ## The table reads of the reverse lookup -/

/-- The positions `k` at which the loop of `scanFrom` evaluates
`pgm_read_word_near( &( _pin_map[ k ]))`, in order, when entered with the given
value of `_pin`. -/
def scanReads (T : Target) (pin : Nat) (_pin : Nat) : List Nat :=
  if _pin < T._io_pins then
    if pin = pgm_read_word_near T _pin then [_pin]
    else _pin :: scanReads T pin (toByte (_pin + 1))
  else []
termination_by T._io_pins - _pin
decreasing_by
  have := T.io_pins_byte
  simp only [toByte]
  omega

/-! ## The tables of `FasterPinIO.cpp` -/

/-- The chip families the preprocessor conditions distinguish. -/
inductive Family where
  /-- `__AVR_ATmega168__`, `__AVR_ATmega328P__`. -/
  | atmega328
  /-- `__AVR_ATmega32U4__`. -/
  | atmega32u4
  /-- `__AVR_ATmega1280__`, `__AVR_ATmega2560__`. -/
  | atmega2560
  /-- `__AVR_ATtiny24__`, `__AVR_ATtiny44__`, `__AVR_ATtiny84__`. -/
  | attiny84
  /-- `__AVR_ATtiny25__`, `__AVR_ATtiny45__`, `__AVR_ATtiny85__`. -/
  | attiny85
deriving DecidableEq, Repr

/-- The value of `_io_pins` that `FasterPinIO.h` selects for a family. -/
def Family.io_pins : Family → Nat
  | .atmega328 => 20
  | .atmega32u4 => 24
  | .atmega2560 => 70
  | .attiny84 => 12
  | .attiny85 => 6

/-- The initialiser list of `_pin_map` that `FasterPinIO.cpp` selects for a
family; the number `k` stands for the enumerator `BOARD::Dk`. -/
def Family.pin_map_init : Family → List Nat
  | .atmega328 =>
  [
    0, 1, 2, 3, 4,
    5, 6, 7, 8, 9,
    10, 11, 12, 13, 14,
    15, 16, 17, 18, 19 ]
  | .atmega32u4 =>
  [
    0, 1, 2, 3, 4,
    5, 6, 7, 8, 9,
    10, 11, 12, 13, 14,
    15, 16, 17, 18, 19,
    20, 21, 22, 23 ]
  | .atmega2560 =>
  [
    0, 1, 2, 3, 4,
    5, 6, 7, 8, 9,
    10, 11, 12, 13, 14,
    15, 16, 17, 18, 19,
    20, 21, 22, 23, 24,
    25, 26, 27, 28, 29,
    30, 31, 32, 33, 34,
    35, 36, 37, 38, 39,
    40, 41, 42, 43, 44,
    45, 46, 47, 48, 49,
    50, 51, 52, 53, 54,
    55, 56, 57, 58, 59,
    60, 61, 62, 63, 64,
    65, 66, 67, 68, 69 ]
  | .attiny84 =>
  [
    0, 1, 2, 3, 4,
    5, 6, 7, 8, 9,
    10, 11 ]
  | .attiny85 =>
  [
    0, 1, 2, 3, 4,
    5, 6 ]

/-! ## The contract of Board.h -/

theorem FPIO_ATOMIC_rmw_history (T : Target) (adrs a : Nat) (f : Nat → Nat) (m : Machine) :
    (FPIO_ATOMIC T adrs (rmw a f) m).history =
      m.history ++ [⟨a, if toInt adrs < (T.GPIO_REG T.GPIO_ATOMIC_MAX : Int)
                        then m.SREG else m.SREG &&& 0x7F⟩] := by
  unfold FPIO_ATOMIC FPIO_IS_ATOMIC
  by_cases hlt : toInt adrs < (T.GPIO_REG T.GPIO_ATOMIC_MAX : Int)
  · simp [hlt, rmw]
  · simp [hlt, rmw, cli, Machine.setSREG, Machine.SREG]

theorem cli_clears_flag (s : Nat) : (s &&& 0x7F).testBit 7 = false := by
  rw [Nat.testBit_and]
  have : Nat.testBit 0x7F 7 = false := by decide
  simp [this]

/-- C2, counterexample: on `sampleTarget` the atomic limit is address `0x40`;
`output()` on a handle whose register group starts at `0x3F` modifies the
direction register at address `0x40`, which is not below the limit, and the
read-modify-write runs with `SREG = 0x80`, the interrupt enable flag set. -/
theorem output_unprotected_at_limit :
    sampleTarget.GPIO_REG sampleTarget.GPIO_ATOMIC_MAX = 0x40 ∧
    straddlingHandle.ddrAdrs = 0x40 ∧
    newByIdent sampleTarget 0x3F0 = straddlingHandle ∧
    (output sampleTarget straddlingHandle enabledMachine).history = [⟨0x40, 0x80⟩] ∧
    Nat.testBit 0x80 7 = true := by
  refine ⟨by decide, by decide, ?_, by decide, by decide⟩
  simp [newByIdent, straddlingHandle, scanFrom, sampleTarget, pgm_read_word_near, toByte,
    toPtr, complByte]

/-- C2, amended: each read-modify-write of `input`, `output`, `low`, `high`
and `toggle` is the only one the call executes, it modifies the direction
register (`input`, `output`) or the output-state register (`low`, `high`,
`toggle`), and it runs with `SREG` as the caller left it exactly when the base
address `_port_adrs` of the register group, cast to `int`, is below
`GPIO_REG(GPIO_ATOMIC_MAX)`; for every base address at or above that limit it
runs with the interrupt enable flag cleared. -/
theorem protection_follows_group_base (T : Target) (h : Handle) (m : Machine) :
    let unprotected := toInt h._port_adrs < (T.GPIO_REG T.GPIO_ATOMIC_MAX : Int)
    let during := if unprotected then m.SREG else m.SREG &&& 0x7F
    ((input T h m).history = m.history ++ [⟨h.ddrAdrs, during⟩] ∧
      (output T h m).history = m.history ++ [⟨h.ddrAdrs, during⟩] ∧
      (low T h m).history = m.history ++ [⟨h.portAdrs, during⟩] ∧
      (high T h m).history = m.history ++ [⟨h.portAdrs, during⟩] ∧
      (toggle T h m).history = m.history ++ [⟨h.portAdrs, during⟩]) ∧
    (unprotected → during = m.SREG) ∧
    (¬ unprotected → during.testBit 7 = false) ∧
    (h._port_adrs < 32768 →
      (unprotected ↔ h._port_adrs < T.GPIO_REG T.GPIO_ATOMIC_MAX)) := by
  intro unprotected during
  refine ⟨⟨?_, ?_, ?_, ?_, ?_⟩, ?_, ?_, ?_⟩
  · exact FPIO_ATOMIC_rmw_history T _ _ _ m
  · exact FPIO_ATOMIC_rmw_history T _ _ _ m
  · exact FPIO_ATOMIC_rmw_history T _ _ _ m
  · exact FPIO_ATOMIC_rmw_history T _ _ _ m
  · exact FPIO_ATOMIC_rmw_history T _ _ _ m
  · intro hu
    simp only [during, if_pos hu]
  · intro hu
    simp only [during, if_neg hu]
    exact cli_clears_flag m.SREG
  · intro hsmall
    have h1 : h._port_adrs % 65536 = h._port_adrs := Nat.mod_eq_of_lt (by omega)
    simp only [unprotected, toInt, h1, if_pos hsmall]
    exact Int.ofNat_lt

/-! ## Effect of the operations on memory -/

/-- What `FPIO_ATOMIC` around a compound assignment to address `a` leaves in
memory: the assignment takes effect, except on the interrupt-disabling branch
when `a` is the address of `SREG`, where `SREG = sreg` stores the saved value
over the byte just written; every other byte, `SREG` included, ends as it was. -/
theorem FPIO_ATOMIC_rmw_mem (T : Target) (adrs a : Nat) (f : Nat → Nat) (m : Machine) (x : Nat) :
    (FPIO_ATOMIC T adrs (rmw a f) m).mem x =
      if x = a ∧ (FPIO_IS_ATOMIC T adrs = true ∨ a ≠ SREG_adrs) then f (m.mem a)
      else m.mem x := by
  unfold FPIO_ATOMIC
  by_cases hat : FPIO_IS_ATOMIC T adrs = true
  · simp only [hat, if_true, true_or, and_true]
    rfl
  · simp only [hat, false_or]
    show (if x = SREG_adrs then m.mem SREG_adrs
      else if x = a then
        f (if a = SREG_adrs then m.mem SREG_adrs &&& 0x7F else m.mem a)
      else if x = SREG_adrs then m.mem SREG_adrs &&& 0x7F else m.mem x) = _
    by_cases hxs : x = SREG_adrs
    · subst hxs
      by_cases hxa : SREG_adrs = a
      · simp [hxa.symm]
      · simp [hxa]
    · by_cases hxa : x = a
      · subst hxa
        simp [hxs]
      · simp [hxs, hxa]

theorem input_mem (T : Target) (h : Handle) (m : Machine) (x : Nat) :
    (input T h m).mem x =
      if x = h.ddrAdrs ∧ (FPIO_IS_ATOMIC T h._port_adrs = true ∨ h.ddrAdrs ≠ SREG_adrs)
      then m.mem h.ddrAdrs &&& h._bit_unset else m.mem x :=
  FPIO_ATOMIC_rmw_mem T _ _ _ m x

theorem output_mem (T : Target) (h : Handle) (m : Machine) (x : Nat) :
    (output T h m).mem x =
      if x = h.ddrAdrs ∧ (FPIO_IS_ATOMIC T h._port_adrs = true ∨ h.ddrAdrs ≠ SREG_adrs)
      then m.mem h.ddrAdrs ||| h._bit_set else m.mem x :=
  FPIO_ATOMIC_rmw_mem T _ _ _ m x

theorem low_mem (T : Target) (h : Handle) (m : Machine) (x : Nat) :
    (low T h m).mem x =
      if x = h.portAdrs ∧ (FPIO_IS_ATOMIC T h._port_adrs = true ∨ h.portAdrs ≠ SREG_adrs)
      then m.mem h.portAdrs &&& h._bit_unset else m.mem x :=
  FPIO_ATOMIC_rmw_mem T _ _ _ m x

theorem high_mem (T : Target) (h : Handle) (m : Machine) (x : Nat) :
    (high T h m).mem x =
      if x = h.portAdrs ∧ (FPIO_IS_ATOMIC T h._port_adrs = true ∨ h.portAdrs ≠ SREG_adrs)
      then m.mem h.portAdrs ||| h._bit_set else m.mem x :=
  FPIO_ATOMIC_rmw_mem T _ _ _ m x

theorem toggle_mem (T : Target) (h : Handle) (m : Machine) (x : Nat) :
    (toggle T h m).mem x =
      if x = h.portAdrs ∧ (FPIO_IS_ATOMIC T h._port_adrs = true ∨ h.portAdrs ≠ SREG_adrs)
      then m.mem h.portAdrs ^^^ h._bit_set else m.mem x :=
  FPIO_ATOMIC_rmw_mem T _ _ _ m x

theorem runOp_mem (T : Target) (h : Handle) (o : Op) (m : Machine) (x : Nat) :
    (runOp T h o m).mem x =
      if x = opAdrs h o ∧ (FPIO_IS_ATOMIC T h._port_adrs = true ∨ opAdrs h o ≠ SREG_adrs)
      then opValue h o (m.mem (opAdrs h o)) else m.mem x := by
  cases o
  · exact input_mem T h m x
  · exact output_mem T h m x
  · exact low_mem T h m x
  · exact high_mem T h m x
  · exact toggle_mem T h m x

/-- Bit `k` of `~b` for a byte: the negation of bit `k` of `b` when `k < 8`,
clear above. -/
theorem testBit_complByte (b k : Nat) :
    (complByte b).testBit k = (decide (k < 8) && !b.testBit k) := by
  have hb : b % 256 < 2 ^ 8 := Nat.mod_lt _ (by decide)
  have h1 : complByte b = 2 ^ 8 - (b % 256 + 1) := by
    unfold complByte
    omega
  rw [h1, Nat.testBit_two_pow_sub_succ hb]
  have h2 : (b % 256).testBit k = (decide (k < 8) && b.testBit k) :=
    Nat.testBit_mod_two_pow b 8 k
  rw [h2]
  by_cases hk : k < 8 <;> simp [hk]

/-- Clearing with `_bit_unset` keeps every bit of the byte that `_bit_set` does
not select. -/
theorem and_compl_keeps (v s k : Nat) (hk : k < 8) (hs : s.testBit k = false) :
    (v &&& complByte s).testBit k = v.testBit k := by
  rw [Nat.testBit_and, testBit_complByte]
  simp [hk, hs]

theorem or_keeps (v s k : Nat) (hs : s.testBit k = false) :
    (v ||| s).testBit k = v.testBit k := by
  rw [Nat.testBit_or]
  simp [hs]

theorem xor_keeps (v s k : Nat) (hs : s.testBit k = false) :
    (v ^^^ s).testBit k = v.testBit k := by
  rw [Nat.testBit_xor]
  simp [hs]

/-- Every constructor and every `setPin` leaves `_bit_unset` the 8-bit
complement of `_bit_set`, the condition under which the clearing operations
touch only the selected bits. -/
theorem binding_sets_complement (T : Target) (h : Handle) (k : Nat) :
    (newByIndex T k)._bit_unset = complByte (newByIndex T k)._bit_set ∧
    (newByIdent T k)._bit_unset = complByte (newByIdent T k)._bit_set ∧
    (setPinIndex T h k)._bit_unset = complByte (setPinIndex T h k)._bit_set ∧
    (setPinIdent T h k)._bit_unset = complByte (setPinIdent T h k)._bit_set :=
  ⟨rfl, rfl, rfl, rfl⟩

/-! ## Interrupt state -/

/-- The value of `SREG` after one of the five operations: the value before the
call, except on the unprotected branch when the register the operation
modifies is `SREG` itself, where it is the value the operation stores. -/
theorem runOp_SREG (T : Target) (h : Handle) (o : Op) (m : Machine) :
    (runOp T h o m).SREG =
      if FPIO_IS_ATOMIC T h._port_adrs = true ∧ opAdrs h o = SREG_adrs
      then opValue h o m.SREG else m.SREG := by
  unfold Machine.SREG
  rw [runOp_mem]
  by_cases ha : opAdrs h o = SREG_adrs
  · by_cases hat : FPIO_IS_ATOMIC T h._port_adrs = true
    · rw [if_pos ⟨ha.symm, Or.inl hat⟩, if_pos ⟨hat, ha⟩, ha]
    · rw [if_neg (fun hc => hc.2.elim hat (fun hne => hne ha)), if_neg (fun hc => hat hc.1)]
  · rw [if_neg (fun hc => ha hc.1.symm), if_neg (fun hc => ha hc.2)]

theorem write_eq_runOp (T : Target) (h : Handle) (v : Bool) (m : Machine) :
    write T h v m = runOp T h (if v then Op.high else Op.low) m := by
  cases v <;> rfl

/-- C1, counterexample: on `wideTarget` the atomic range ends at `0x60`; the
handle built from the identifier `0x5D7` has its output-state register at
`0x5F`, the address of `SREG`, and its group base `0x5D` below the limit, so
`high()` runs unprotected and stores `SREG |= 0x80`: called with `SREG = 0`,
interrupts disabled, it returns with `SREG = 0x80`, interrupts enabled. -/
theorem unprotected_high_enables_interrupts :
    newByIdent wideTarget 0x5D7 = statusHandle ∧
    FPIO_IS_ATOMIC wideTarget statusHandle._port_adrs = true ∧
    statusHandle.portAdrs = SREG_adrs ∧
    quietMachine.SREG = 0 ∧
    quietMachine.interruptsEnabled = false ∧
    (high wideTarget statusHandle quietMachine).SREG = 0x80 ∧
    (high wideTarget statusHandle quietMachine).interruptsEnabled = true := by
  refine ⟨?_, by decide, by decide, by decide, by decide, by decide, by decide⟩
  simp [newByIdent, statusHandle, scanFrom, wideTarget, pgm_read_word_near, toByte,
    toPtr, complByte]

/-- C1, amended (restore-not-force): whatever the handle, the memory content
and the initial value of `SREG`, each of `input`, `output`, `low`, `high`,
`toggle` and `write v` ends with `SREG` equal to its value before the call,
except on the unprotected branch when the register the operation modifies is
`SREG` itself: then `SREG` ends as the value the operation stores (the value
before the call with the bits of the mask cleared, set or inverted).  In
particular `SREG` and the interrupt enable flag are as they were on the
interrupt-disabling branch for every handle, and on both branches for every
handle whose direction and output-state registers are not `SREG`. -/
theorem restore_not_force (T : Target) (h : Handle) (m : Machine) (v : Bool) :
    (∀ o : Op, (runOp T h o m).SREG =
      if FPIO_IS_ATOMIC T h._port_adrs = true ∧ opAdrs h o = SREG_adrs
      then opValue h o m.SREG else m.SREG) ∧
    (write T h v m).SREG =
      (if FPIO_IS_ATOMIC T h._port_adrs = true ∧ h.portAdrs = SREG_adrs
       then (if v then m.SREG ||| h._bit_set else m.SREG &&& h._bit_unset) else m.SREG) ∧
    ((FPIO_IS_ATOMIC T h._port_adrs = false ∨
        (h.ddrAdrs ≠ SREG_adrs ∧ h.portAdrs ≠ SREG_adrs)) →
      ((input T h m).SREG = m.SREG ∧ (output T h m).SREG = m.SREG ∧
        (low T h m).SREG = m.SREG ∧ (high T h m).SREG = m.SREG ∧
        (toggle T h m).SREG = m.SREG ∧ (write T h v m).SREG = m.SREG) ∧
      ((input T h m).interruptsEnabled = m.interruptsEnabled ∧
        (output T h m).interruptsEnabled = m.interruptsEnabled ∧
        (low T h m).interruptsEnabled = m.interruptsEnabled ∧
        (high T h m).interruptsEnabled = m.interruptsEnabled ∧
        (toggle T h m).interruptsEnabled = m.interruptsEnabled ∧
        (write T h v m).interruptsEnabled = m.interruptsEnabled)) := by
  have hw : (write T h v m).SREG =
      (if FPIO_IS_ATOMIC T h._port_adrs = true ∧ h.portAdrs = SREG_adrs
       then (if v then m.SREG ||| h._bit_set else m.SREG &&& h._bit_unset) else m.SREG) := by
    rw [write_eq_runOp, runOp_SREG]
    cases v <;> rfl
  refine ⟨fun o => runOp_SREG T h o m, hw, ?_⟩
  intro hcond
  have same : ∀ o : Op, (runOp T h o m).SREG = m.SREG := by
    intro o
    rw [runOp_SREG]
    apply if_neg
    rintro ⟨hat, ha⟩
    rcases hcond with hf | ⟨hd, hp⟩
    · rw [hat] at hf
      exact Bool.noConfusion hf
    · cases o
      · exact hd ha
      · exact hd ha
      · exact hp ha
      · exact hp ha
      · exact hp ha
  have hi : (input T h m).SREG = m.SREG := same Op.input
  have ho : (output T h m).SREG = m.SREG := same Op.output
  have hl : (low T h m).SREG = m.SREG := same Op.low
  have hh : (high T h m).SREG = m.SREG := same Op.high
  have ht : (toggle T h m).SREG = m.SREG := same Op.toggle
  have hwv : (write T h v m).SREG = m.SREG := by
    rw [write_eq_runOp]
    exact same _
  refine ⟨⟨hi, ho, hl, hh, ht, hwv⟩, ?_⟩
  simp only [Machine.interruptsEnabled, hi, ho, hl, hh, ht, hwv, and_self]

/-! ## Mask isolation -/

/-- C3 (mask isolation): for a handle whose `_bit_unset` is the complement of
its `_bit_set`, `input` and `output` change no address but the direction
register, `low`, `high` and `toggle` no address but the output-state register,
and in that register every bit that `_bit_set` does not select keeps its value;
hence for a second handle on the same register group with a different
single-bit mask, its bit is unchanged in all three registers of the group. -/
theorem mask_isolation (T : Target) (h : Handle) (m : Machine)
    (hinv : h._bit_unset = complByte h._bit_set) :
    (∀ x, x ≠ h.ddrAdrs →
      (input T h m).mem x = m.mem x ∧ (output T h m).mem x = m.mem x) ∧
    (∀ x, x ≠ h.portAdrs →
      (low T h m).mem x = m.mem x ∧ (high T h m).mem x = m.mem x ∧
      (toggle T h m).mem x = m.mem x) ∧
    (∀ k, h._bit_set.testBit k = false →
      (k < 8 → ((input T h m).mem h.ddrAdrs).testBit k = (m.mem h.ddrAdrs).testBit k) ∧
      ((output T h m).mem h.ddrAdrs).testBit k = (m.mem h.ddrAdrs).testBit k ∧
      (k < 8 → ((low T h m).mem h.portAdrs).testBit k = (m.mem h.portAdrs).testBit k) ∧
      ((high T h m).mem h.portAdrs).testBit k = (m.mem h.portAdrs).testBit k ∧
      ((toggle T h m).mem h.portAdrs).testBit k = (m.mem h.portAdrs).testBit k) ∧
    (∀ (other : Handle) (i j : Nat), i < 8 → j < 8 → i ≠ j →
      other._port_adrs = h._port_adrs → h._bit_set = 2 ^ i → other._bit_set = 2 ^ j →
      ∀ x, x = other.pinAdrs ∨ x = other.ddrAdrs ∨ x = other.portAdrs →
        ((input T h m).mem x).testBit j = (m.mem x).testBit j ∧
        ((output T h m).mem x).testBit j = (m.mem x).testBit j ∧
        ((low T h m).mem x).testBit j = (m.mem x).testBit j ∧
        ((high T h m).mem x).testBit j = (m.mem x).testBit j ∧
        ((toggle T h m).mem x).testBit j = (m.mem x).testBit j) := by
  have frameD : ∀ x, x ≠ h.ddrAdrs →
      (input T h m).mem x = m.mem x ∧ (output T h m).mem x = m.mem x := by
    intro x hx
    rw [input_mem, output_mem, if_neg (fun hc => hx hc.1), if_neg (fun hc => hx hc.1)]
    exact ⟨rfl, rfl⟩
  have frameP : ∀ x, x ≠ h.portAdrs →
      (low T h m).mem x = m.mem x ∧ (high T h m).mem x = m.mem x ∧
      (toggle T h m).mem x = m.mem x := by
    intro x hx
    rw [low_mem, high_mem, toggle_mem, if_neg (fun hc => hx hc.1), if_neg (fun hc => hx hc.1),
      if_neg (fun hc => hx hc.1)]
    exact ⟨rfl, rfl, rfl⟩
  have bitsD : ∀ k, h._bit_set.testBit k = false →
      (k < 8 → ((input T h m).mem h.ddrAdrs).testBit k = (m.mem h.ddrAdrs).testBit k) ∧
      ((output T h m).mem h.ddrAdrs).testBit k = (m.mem h.ddrAdrs).testBit k := by
    intro k hk
    rw [input_mem, output_mem]
    by_cases hD : FPIO_IS_ATOMIC T h._port_adrs = true ∨ h.ddrAdrs ≠ SREG_adrs
    · rw [if_pos ⟨rfl, hD⟩, if_pos ⟨rfl, hD⟩, hinv]
      exact ⟨fun h8 => and_compl_keeps _ _ k h8 hk, or_keeps _ _ k hk⟩
    · rw [if_neg (fun hc => hD hc.2), if_neg (fun hc => hD hc.2)]
      exact ⟨fun _ => rfl, rfl⟩
  have bitsP : ∀ k, h._bit_set.testBit k = false →
      (k < 8 → ((low T h m).mem h.portAdrs).testBit k = (m.mem h.portAdrs).testBit k) ∧
      ((high T h m).mem h.portAdrs).testBit k = (m.mem h.portAdrs).testBit k ∧
      ((toggle T h m).mem h.portAdrs).testBit k = (m.mem h.portAdrs).testBit k := by
    intro k hk
    rw [low_mem, high_mem, toggle_mem]
    by_cases hP : FPIO_IS_ATOMIC T h._port_adrs = true ∨ h.portAdrs ≠ SREG_adrs
    · rw [if_pos ⟨rfl, hP⟩, if_pos ⟨rfl, hP⟩, if_pos ⟨rfl, hP⟩, hinv]
      exact ⟨fun h8 => and_compl_keeps _ _ k h8 hk, or_keeps _ _ k hk, xor_keeps _ _ k hk⟩
    · rw [if_neg (fun hc => hP hc.2), if_neg (fun hc => hP hc.2), if_neg (fun hc => hP hc.2)]
      exact ⟨fun _ => rfl, rfl, rfl⟩
  have bits : ∀ k, h._bit_set.testBit k = false →
      (k < 8 → ((input T h m).mem h.ddrAdrs).testBit k = (m.mem h.ddrAdrs).testBit k) ∧
      ((output T h m).mem h.ddrAdrs).testBit k = (m.mem h.ddrAdrs).testBit k ∧
      (k < 8 → ((low T h m).mem h.portAdrs).testBit k = (m.mem h.portAdrs).testBit k) ∧
      ((high T h m).mem h.portAdrs).testBit k = (m.mem h.portAdrs).testBit k ∧
      ((toggle T h m).mem h.portAdrs).testBit k = (m.mem h.portAdrs).testBit k := by
    intro k hk
    exact ⟨(bitsD k hk).1, (bitsD k hk).2, (bitsP k hk).1, (bitsP k hk).2.1, (bitsP k hk).2.2⟩
  refine ⟨frameD, frameP, bits, ?_⟩
  intro other i j _ hj hij _ hs _ x _
  have hbit : h._bit_set.testBit j = false := by
    rw [hs, Nat.testBit_two_pow]
    simp [hij]
  obtain ⟨bi, bo, bl, bh, bt⟩ := bits j hbit
  have dd : ((input T h m).mem x).testBit j = (m.mem x).testBit j ∧
      ((output T h m).mem x).testBit j = (m.mem x).testBit j := by
    by_cases hx : x = h.ddrAdrs
    · subst hx
      exact ⟨bi hj, bo⟩
    · obtain ⟨e1, e2⟩ := frameD x hx
      rw [e1, e2]
      exact ⟨rfl, rfl⟩
  have pp : ((low T h m).mem x).testBit j = (m.mem x).testBit j ∧
      ((high T h m).mem x).testBit j = (m.mem x).testBit j ∧
      ((toggle T h m).mem x).testBit j = (m.mem x).testBit j := by
    by_cases hx : x = h.portAdrs
    · subst hx
      exact ⟨bl hj, bh, bt⟩
    · obtain ⟨e1, e2, e3⟩ := frameP x hx
      rw [e1, e2, e3]
      exact ⟨rfl, rfl, rfl⟩
  exact ⟨dd.1, dd.2, pp.1, pp.2.1, pp.2.2⟩

/-- C3, instance: on `sampleTarget`, toggling pin 0 of the group at `0x29`
leaves bit 1, the bit of pin 1, of the output-state register at `0x2B` as it
was. -/
theorem mask_isolation_witness :
    samplePin0._bit_unset = complByte samplePin0._bit_set ∧
    ((toggle sampleTarget samplePin0 busyMachine).mem 0x2B).testBit 1 =
      (busyMachine.mem 0x2B).testBit 1 :=
  ⟨by decide,
    ((mask_isolation sampleTarget samplePin0 busyMachine (by decide)).2.2.2
      samplePin1 0 1 (by decide) (by decide) (by decide) rfl rfl rfl
      0x2B (Or.inr (Or.inr rfl))).2.2.2.2⟩

/-! ## Postconditions of the set and clear operations -/

theorem or_and_self (v s : Nat) : (v ||| s) &&& s = s := by
  apply Nat.eq_of_testBit_eq
  intro k
  rw [Nat.testBit_and, Nat.testBit_or]
  cases v.testBit k <;> cases s.testBit k <;> rfl

theorem and_compl_and_self (v s : Nat) : (v &&& complByte s) &&& s = 0 := by
  apply Nat.eq_of_testBit_eq
  intro k
  rw [Nat.testBit_and, Nat.testBit_and, testBit_complByte, Nat.zero_testBit]
  cases v.testBit k <;> cases s.testBit k <;> simp

/-- C4, counterexample: on `sampleTarget` (atomic range up to `0x40`) the
handle built from `0x5D7` has mask `0x80`, inverse mask `0x7F` and its
output-state register at `0x5F`, the address of `SREG`; `high()` runs on the
interrupt-disabling branch, whose `SREG = sreg` stores the saved value `0`
over the byte just set: after `high()` the bit of the handle is clear. -/
theorem high_on_status_register_is_undone :
    newByIdent sampleTarget 0x5D7 = statusHandle ∧
    statusHandle._bit_unset = complByte statusHandle._bit_set ∧
    FPIO_IS_ATOMIC sampleTarget statusHandle._port_adrs = false ∧
    statusHandle.portAdrs = SREG_adrs ∧
    (high sampleTarget statusHandle quietMachine).mem statusHandle.portAdrs
      &&& statusHandle._bit_set = 0 ∧
    statusHandle._bit_set = 0x80 := by
  refine ⟨?_, by decide, by decide, by decide, by decide, by decide⟩
  simp [newByIdent, statusHandle, scanFrom, sampleTarget, pgm_read_word_near, toByte,
    toPtr, complByte]

/-- C4, amended: for a handle whose `_bit_unset` is the complement of its
`_bit_set` and any memory content, after `output()` the direction register has
the bits of `_bit_set` set, after `input()` it has them clear, after `high()`
the output-state register has them set and after `low()` it has them clear,
except when that register is `SREG` and the operation runs on the
interrupt-disabling branch: then the register ends with the value it had
before the call. -/
theorem set_clear_postconditions (T : Target) (h : Handle) (m : Machine)
    (hinv : h._bit_unset = complByte h._bit_set) :
    ((FPIO_IS_ATOMIC T h._port_adrs = true ∨ h.ddrAdrs ≠ SREG_adrs) →
      (output T h m).mem h.ddrAdrs &&& h._bit_set = h._bit_set ∧
      (input T h m).mem h.ddrAdrs &&& h._bit_set = 0) ∧
    ((FPIO_IS_ATOMIC T h._port_adrs = true ∨ h.portAdrs ≠ SREG_adrs) →
      (high T h m).mem h.portAdrs &&& h._bit_set = h._bit_set ∧
      (low T h m).mem h.portAdrs &&& h._bit_set = 0) ∧
    (FPIO_IS_ATOMIC T h._port_adrs = false → h.ddrAdrs = SREG_adrs →
      (output T h m).mem h.ddrAdrs = m.mem h.ddrAdrs ∧
      (input T h m).mem h.ddrAdrs = m.mem h.ddrAdrs) ∧
    (FPIO_IS_ATOMIC T h._port_adrs = false → h.portAdrs = SREG_adrs →
      (high T h m).mem h.portAdrs = m.mem h.portAdrs ∧
      (low T h m).mem h.portAdrs = m.mem h.portAdrs) := by
  refine ⟨?_, ?_, ?_, ?_⟩
  · intro hD
    rw [output_mem, input_mem, if_pos ⟨rfl, hD⟩, if_pos ⟨rfl, hD⟩, hinv]
    exact ⟨or_and_self _ _, and_compl_and_self _ _⟩
  · intro hP
    rw [high_mem, low_mem, if_pos ⟨rfl, hP⟩, if_pos ⟨rfl, hP⟩, hinv]
    exact ⟨or_and_self _ _, and_compl_and_self _ _⟩
  · intro hat ha
    have hno : ¬ (FPIO_IS_ATOMIC T h._port_adrs = true ∨ h.ddrAdrs ≠ SREG_adrs) := by
      rintro (ht | hne)
      · rw [hat] at ht
        exact Bool.noConfusion ht
      · exact hne ha
    rw [output_mem, input_mem, if_neg (fun hc => hno hc.2), if_neg (fun hc => hno hc.2)]
    exact ⟨rfl, rfl⟩
  · intro hat ha
    have hno : ¬ (FPIO_IS_ATOMIC T h._port_adrs = true ∨ h.portAdrs ≠ SREG_adrs) := by
      rintro (ht | hne)
      · rw [hat] at ht
        exact Bool.noConfusion ht
      · exact hne ha
    rw [high_mem, low_mem, if_neg (fun hc => hno hc.2), if_neg (fun hc => hno hc.2)]
    exact ⟨rfl, rfl⟩

/-- C4, instance: on `sampleTarget` with the direction register at `0x2A`
holding `0x0F` and the output-state register at `0x2B` holding `0xF3`, the
four operations of pin 1 (mask 2) leave that bit set, clear, set, clear. -/
theorem set_clear_postconditions_witness :
    samplePin1._bit_unset = complByte samplePin1._bit_set ∧
    ((output sampleTarget samplePin1 busyMachine).mem 0x2A &&& 2 = 2 ∧
      (input sampleTarget samplePin1 busyMachine).mem 0x2A &&& 2 = 0) ∧
    ((high sampleTarget samplePin1 busyMachine).mem 0x2B &&& 2 = 2 ∧
      (low sampleTarget samplePin1 busyMachine).mem 0x2B &&& 2 = 0) :=
  have hall := set_clear_postconditions sampleTarget samplePin1 busyMachine (by decide)
  ⟨by decide, hall.1 (Or.inr (by decide)), hall.2.1 (Or.inr (by decide))⟩

/-! ## Toggle -/

/-- C5, counterexample: on `sampleTarget` the handle built from `0x5D7` has its
output-state register at the address of `SREG` and runs on the
interrupt-disabling branch; `toggle()` with all memory zero leaves bit 7 of
that register clear, as it was: the bit of the handle is not inverted. -/
theorem toggle_on_status_register_is_undone :
    newByIdent sampleTarget 0x5D7 = statusHandle ∧
    FPIO_IS_ATOMIC sampleTarget statusHandle._port_adrs = false ∧
    statusHandle.portAdrs = SREG_adrs ∧
    statusHandle._bit_set = 2 ^ 7 ∧
    (quietMachine.mem statusHandle.portAdrs).testBit 7 = false ∧
    ((toggle sampleTarget statusHandle quietMachine).mem statusHandle.portAdrs).testBit 7
      = false := by
  refine ⟨?_, by decide, by decide, by decide, by decide, by decide⟩
  simp [newByIdent, statusHandle, scanFrom, sampleTarget, pgm_read_word_near, toByte,
    toPtr, complByte]

/-- C5, amended: for every handle and memory content, `toggle()` inverts in
the output-state register exactly the bits `_bit_set` selects (the one bit of
a single-bit mask), except when that register is `SREG` and the operation runs
on the interrupt-disabling branch, where the whole memory ends as it was; in
every case the bits not selected keep their value and `toggle()` twice in a
row gives back the original memory, the output-state register and `SREG`
included. -/
theorem toggle_flips_and_twice_restores (T : Target) (h : Handle) (m : Machine) :
    ((FPIO_IS_ATOMIC T h._port_adrs = true ∨ h.portAdrs ≠ SREG_adrs) →
      (∀ k, h._bit_set.testBit k = true →
        ((toggle T h m).mem h.portAdrs).testBit k = !(m.mem h.portAdrs).testBit k) ∧
      (∀ i, h._bit_set = 2 ^ i →
        ((toggle T h m).mem h.portAdrs).testBit i = !(m.mem h.portAdrs).testBit i)) ∧
    (FPIO_IS_ATOMIC T h._port_adrs = false → h.portAdrs = SREG_adrs →
      (toggle T h m).mem = m.mem) ∧
    (∀ k, h._bit_set.testBit k = false →
      ((toggle T h m).mem h.portAdrs).testBit k = (m.mem h.portAdrs).testBit k) ∧
    (toggle T h (toggle T h m)).mem h.portAdrs = m.mem h.portAdrs ∧
    (toggle T h (toggle T h m)).mem = m.mem ∧
    (toggle T h (toggle T h m)).SREG = m.SREG := by
  have twice : (toggle T h (toggle T h m)).mem = m.mem := by
    funext x
    simp only [toggle_mem]
    by_cases hP : FPIO_IS_ATOMIC T h._port_adrs = true ∨ h.portAdrs ≠ SREG_adrs
    · by_cases hx : x = h.portAdrs
      · subst hx
        rw [if_pos ⟨rfl, hP⟩, if_pos ⟨trivial, hP⟩, Nat.xor_assoc, Nat.xor_self, Nat.xor_zero]
      · rw [if_neg (fun hc => hx hc.1), if_neg (fun hc => hx hc.1)]
    · rw [if_neg (fun hc => hP hc.2), if_neg (fun hc => hP hc.2)]
  refine ⟨?_, ?_, ?_, ?_, twice, ?_⟩
  · intro hP
    have flip : ∀ k, h._bit_set.testBit k = true →
        ((toggle T h m).mem h.portAdrs).testBit k = !(m.mem h.portAdrs).testBit k := by
      intro k hk
      rw [toggle_mem, if_pos ⟨rfl, hP⟩, Nat.testBit_xor, hk]
      simp
    refine ⟨flip, ?_⟩
    intro i hi
    apply flip
    rw [hi, Nat.testBit_two_pow]
    simp
  · intro hat ha
    have hno : ¬ (FPIO_IS_ATOMIC T h._port_adrs = true ∨ h.portAdrs ≠ SREG_adrs) := by
      rintro (ht | hne)
      · rw [hat] at ht
        exact Bool.noConfusion ht
      · exact hne ha
    funext x
    rw [toggle_mem, if_neg (fun hc => hno hc.2)]
  · intro k hk
    rw [toggle_mem]
    by_cases hP : FPIO_IS_ATOMIC T h._port_adrs = true ∨ h.portAdrs ≠ SREG_adrs
    · rw [if_pos ⟨rfl, hP⟩]
      exact xor_keeps _ _ k hk
    · rw [if_neg (fun hc => hP hc.2)]
  · rw [twice]
  · unfold Machine.SREG
    rw [twice]

/-! ## The reverse lookup -/

/-- What the scan computes when entered with `_pin = k`, `k ≤ _io_pins`: the
exit value `r` lies in `[k, _io_pins]`, no position in `[k, r)` holds the
identifier, and `r` holds it unless `r = _io_pins`. -/
theorem scanFrom_spec (T : Target) (p : Nat) (k : Nat) (hk : k ≤ T._io_pins) :
    k ≤ scanFrom T p k ∧ scanFrom T p k ≤ T._io_pins ∧
    (∀ j, k ≤ j → j < scanFrom T p k → T._pin_map j ≠ p) ∧
    (scanFrom T p k < T._io_pins → T._pin_map (scanFrom T p k) = p) := by
  induction k using scanFrom.induct T p with
  | case1 k hlt heq =>
    rw [scanFrom, if_pos hlt, if_pos heq]
    refine ⟨le_refl _, hk, ?_, ?_⟩
    · intro j h1 h2
      omega
    · intro _
      exact heq.symm
  | case2 k hlt hne ih =>
    have hb := T.io_pins_byte
    have hstep : toByte (k + 1) = k + 1 := by
      unfold toByte
      omega
    rw [scanFrom, if_pos hlt, if_neg hne]
    rw [hstep] at ih ⊢
    obtain ⟨h1, h2, h3, h4⟩ := ih (by omega)
    refine ⟨by omega, h2, ?_, h4⟩
    intro j hj1 hj2
    by_cases hjk : j = k
    · subst hjk
      intro hEq
      exact hne hEq.symm
    · exact h3 j (by omega) hj2
  | case3 k hge =>
    rw [scanFrom, if_neg hge]
    refine ⟨le_refl _, hk, ?_, ?_⟩
    · intro j h1 h2
      omega
    · intro hlt
      exact absurd hlt hge

theorem pin_newByIdent (T : Target) (p : Nat) : pin (newByIdent T p) = scanFrom T p 0 := rfl

theorem pin_setPinIdent (T : Target) (h : Handle) (p : Nat) :
    pin (setPinIdent T h p) = scanFrom T p 0 := rfl

/-- The scan from 0 stops at the first position holding the identifier. -/
theorem scan_first_match (T : Target) (p : Nat) (hocc : ∃ i, i < T._io_pins ∧ T._pin_map i = p) :
    scanFrom T p 0 < T._io_pins ∧ T._pin_map (scanFrom T p 0) = p ∧
    ∀ j, j < scanFrom T p 0 → T._pin_map j ≠ p := by
  obtain ⟨_, h2, h3, h4⟩ := scanFrom_spec T p 0 (Nat.zero_le _)
  obtain ⟨i, hi, hp⟩ := hocc
  have hlt : scanFrom T p 0 < T._io_pins := by
    by_contra hge
    exact h3 i (Nat.zero_le _) (by omega) hp
  exact ⟨hlt, h4 hlt, fun j hj => h3 j (Nat.zero_le _) hj⟩

/-- C6 (round trip): when no identifier occurs at two positions of the table,
binding by the identifier stored at a valid position `i`, with
`setPin( BOARD::pin_t )` on any handle or with the identifier constructor,
leaves `pin()` equal to `i`. -/
theorem bind_by_ident_round_trip (T : Target) (h : Handle) (i : Nat)
    (hnodup : ∀ a, a < T._io_pins → ∀ b, b < T._io_pins →
      T._pin_map a = T._pin_map b → a = b)
    (hi : i < T._io_pins) :
    pin (setPinIdent T h (pgm_read_word_near T i)) = i ∧
    pin (newByIdent T (pgm_read_word_near T i)) = i := by
  obtain ⟨hlt, hval, _⟩ := scan_first_match T (T._pin_map i) ⟨i, hi, rfl⟩
  have hr : scanFrom T (T._pin_map i) 0 = i := hnodup _ hlt _ hi hval
  rw [pin_setPinIdent, pin_newByIdent]
  exact ⟨hr, hr⟩

/-- C6, instance: on `sampleTarget`, whose three identifiers are distinct,
binding by the identifier at position 2 gives `pin() = 2`. -/
theorem bind_by_ident_round_trip_witness :
    (∀ a, a < sampleTarget._io_pins → ∀ b, b < sampleTarget._io_pins →
      sampleTarget._pin_map a = sampleTarget._pin_map b → a = b) ∧
    2 < sampleTarget._io_pins ∧
    pin (setPinIdent sampleTarget samplePin0 (pgm_read_word_near sampleTarget 2)) = 2 ∧
    pin (newByIdent sampleTarget (pgm_read_word_near sampleTarget 2)) = 2 :=
  have hnodup : ∀ a, a < sampleTarget._io_pins → ∀ b, b < sampleTarget._io_pins →
      sampleTarget._pin_map a = sampleTarget._pin_map b → a = b := by
    decide
  ⟨hnodup, by decide, bind_by_ident_round_trip sampleTarget samplePin0 2 hnodup (by decide)⟩

/-- C7: for any table, duplicates allowed, and any identifier that occurs in
it, binding by that identifier sets the logical index to the first position
holding it: `pin()` is a valid position, the table holds the identifier there
and at no position below. -/
theorem bind_by_ident_first_match (T : Target) (h : Handle) (p : Nat)
    (hocc : ∃ i, i < T._io_pins ∧ T._pin_map i = p) :
    (pin (setPinIdent T h p) < T._io_pins ∧
      pgm_read_word_near T (pin (setPinIdent T h p)) = p ∧
      ∀ j, j < pin (setPinIdent T h p) → pgm_read_word_near T j ≠ p) ∧
    (pin (newByIdent T p) < T._io_pins ∧
      pgm_read_word_near T (pin (newByIdent T p)) = p ∧
      ∀ j, j < pin (newByIdent T p) → pgm_read_word_near T j ≠ p) := by
  rw [pin_setPinIdent, pin_newByIdent]
  exact ⟨scan_first_match T p hocc, scan_first_match T p hocc⟩

/-- C7, instance: on `repeatingTarget` the identifier `0x290` is stored at
positions 1 and 3; binding by it gives a position holding `0x290` with none
below it holding `0x290`. -/
theorem bind_by_ident_first_match_witness :
    (∃ i, i < repeatingTarget._io_pins ∧ repeatingTarget._pin_map i = 0x290) ∧
    pin (setPinIdent repeatingTarget samplePin0 0x290) < repeatingTarget._io_pins ∧
    pgm_read_word_near repeatingTarget (pin (setPinIdent repeatingTarget samplePin0 0x290))
      = 0x290 ∧
    (∀ j, j < pin (setPinIdent repeatingTarget samplePin0 0x290) →
      pgm_read_word_near repeatingTarget j ≠ 0x290) ∧
    pin (setPinIdent repeatingTarget samplePin0 0x290) = 1 := by
  obtain ⟨h1, h2, h3⟩ :=
    (bind_by_ident_first_match repeatingTarget samplePin0 0x290 ⟨3, by decide, by decide⟩).1
  refine ⟨⟨3, by decide, by decide⟩, h1, h2, h3, ?_⟩
  simp [pin, setPinIdent, scanFrom, repeatingTarget, pgm_read_word_near, toByte]

/-- C8: for an identifier that occurs at no position of the table, binding by
it, with the constructor or with `setPin`, leaves the logical index equal to
the table length: `pin()` returns `_io_pins`. -/
theorem bind_by_ident_no_match (T : Target) (h : Handle) (p : Nat)
    (habsent : ∀ i, i < T._io_pins → T._pin_map i ≠ p) :
    pin (setPinIdent T h p) = T._io_pins ∧ pin (newByIdent T p) = T._io_pins := by
  obtain ⟨_, h2, _, h4⟩ := scanFrom_spec T p 0 (Nat.zero_le _)
  have hr : scanFrom T p 0 = T._io_pins := by
    by_contra hne
    have hlt : scanFrom T p 0 < T._io_pins := by omega
    exact habsent _ hlt (h4 hlt)
  rw [pin_setPinIdent, pin_newByIdent]
  exact ⟨hr, hr⟩

/-- C8, instance: `0x3F0` is not in the table of `sampleTarget`; binding by it
gives `pin() = 3`, the table length. -/
theorem bind_by_ident_no_match_witness :
    (∀ i, i < sampleTarget._io_pins → sampleTarget._pin_map i ≠ 0x3F0) ∧
    pin (setPinIdent sampleTarget samplePin0 0x3F0) = 3 ∧
    pin (newByIdent sampleTarget 0x3F0) = 3 :=
  have habsent : ∀ i, i < sampleTarget._io_pins → sampleTarget._pin_map i ≠ 0x3F0 := by
    decide
  ⟨habsent, bind_by_ident_no_match sampleTarget samplePin0 0x3F0 habsent⟩

/-! ## The register binding -/

theorem toByte_add_complByte (x : Nat) : toByte x + complByte (toByte x) = 255 := by
  unfold complByte toByte
  omega

/-- C10: for a valid logical index `i`, `setPin( byte )` and the index
constructor set `_pin` to `i`, `_port_adrs` to `GPIO_REG` of the table entry
`i` as a pointer, `_bit_set` to `GPIO_MASK` of that entry as a byte and
`_bit_unset` to its 8-bit complement; the resulting handle is the same for
every previous handle state and the same when the call is repeated. -/
theorem bind_by_index (T : Target) (h : Handle) (i : Nat) (hi : i < T._io_pins) :
    setPinIndex T h i =
      { _pin := i
        _port_adrs := toPtr (T.GPIO_REG (T._pin_map i))
        _bit_set := toByte (T.GPIO_MASK (T._pin_map i))
        _bit_unset := complByte (toByte (T.GPIO_MASK (T._pin_map i))) } ∧
    newByIndex T i = setPinIndex T h i ∧
    pin (setPinIndex T h i) = i ∧
    toByte i = i ∧
    (setPinIndex T h i)._bit_set + (setPinIndex T h i)._bit_unset = 255 ∧
    (T.GPIO_REG (T._pin_map i) < 65536 →
      (setPinIndex T h i)._port_adrs = T.GPIO_REG (T._pin_map i)) ∧
    (T.GPIO_MASK (T._pin_map i) < 256 →
      (setPinIndex T h i)._bit_set = T.GPIO_MASK (T._pin_map i)) ∧
    (∀ h' : Handle, setPinIndex T h' i = setPinIndex T h i) ∧
    setPinIndex T (setPinIndex T h i) i = setPinIndex T h i := by
  have hb := T.io_pins_byte
  refine ⟨rfl, rfl, rfl, ?_, ?_, ?_, ?_, fun _ => rfl, rfl⟩
  · unfold toByte
    omega
  · exact toByte_add_complByte _
  · intro hlt
    exact Nat.mod_eq_of_lt hlt
  · intro hlt
    exact Nat.mod_eq_of_lt hlt

/-- C10, instance: on `sampleTarget`, `setPin( 1 )` on the handle of pin 0
gives the handle of pin 1: group at `0x29`, mask 2, inverse mask 253. -/
theorem bind_by_index_witness :
    1 < sampleTarget._io_pins ∧
    setPinIndex sampleTarget samplePin0 1 =
      { _pin := 1
        _port_adrs := toPtr (sampleTarget.GPIO_REG (sampleTarget._pin_map 1))
        _bit_set := toByte (sampleTarget.GPIO_MASK (sampleTarget._pin_map 1))
        _bit_unset := complByte (toByte (sampleTarget.GPIO_MASK (sampleTarget._pin_map 1))) } ∧
    setPinIndex sampleTarget samplePin0 1 = samplePin1 :=
  ⟨by decide, (bind_by_index sampleTarget samplePin0 1 (by decide)).1, by decide⟩

/-! ## Consistency of the binding -/

theorem consistent_newByIndex (T : Target) (k : Nat) (hk : k < T._io_pins) :
    Consistent T (newByIndex T k) :=
  ⟨hk, rfl, rfl⟩

theorem consistent_setPinIndex (T : Target) (h : Handle) (k : Nat) (hk : k < T._io_pins) :
    Consistent T (setPinIndex T h k) :=
  ⟨hk, rfl, rfl⟩

theorem consistent_newByIdent (T : Target) (p : Nat) (hp : inTable T p) :
    Consistent T (newByIdent T p) := by
  obtain ⟨hlt, hval, _⟩ := scan_first_match T p hp
  refine ⟨hlt, ?_, ?_⟩
  · show toPtr (T.GPIO_REG p) = toPtr (T.GPIO_REG (T._pin_map (scanFrom T p 0)))
    rw [hval]
  · show toByte (T.GPIO_MASK p) = toByte (T.GPIO_MASK (T._pin_map (scanFrom T p 0)))
    rw [hval]

theorem consistent_setPinIdent (T : Target) (h : Handle) (p : Nat) (hp : inTable T p) :
    Consistent T (setPinIdent T h p) :=
  consistent_newByIdent T p hp

/-- A valid call that is not a constructor keeps the members consistent. -/
theorem consistent_step (T : Target) (c : Call) (s : Handle × Machine)
    (hc : isConstructor c = false) (hv : validCall T c) (hs : Consistent T s.1) :
    Consistent T (runCall T c s).1 := by
  obtain ⟨h, m⟩ := s
  cases c with
  | construct k => simp [isConstructor] at hc
  | constructDefault => simp [isConstructor] at hc
  | constructIdent p => simp [isConstructor] at hc
  | setPin k => exact consistent_setPinIndex T h k hv
  | setPinIdent p => exact consistent_setPinIdent T h p hv
  | modify o => exact hs
  | read => exact hs
  | write val => exact hs
  | pin => exact hs

theorem consistent_steps (T : Target) (cs : List Call) (s : Handle × Machine)
    (hcs : ∀ c ∈ cs, isConstructor c = false ∧ validCall T c) (hs : Consistent T s.1) :
    Consistent T (runCalls T cs s).1 := by
  induction cs generalizing s with
  | nil => exact hs
  | cons c cs ih =>
    have hc := hcs c (List.mem_cons_self c cs)
    exact ih (runCall T c s) (fun d hd => hcs d (List.mem_cons_of_mem c hd))
      (consistent_step T c s hc.1 hc.2 hs)

/-- C11, counterexample: on `sampleTarget` (three pins) the identifier
constructor called with `0x3F0`, which is not in the table, and followed by no
`setPin` call, leaves `pin()` equal to `_io_pins`, not below it; the index
constructor called with 5 leaves `pin()` equal to 5.  Neither state is
consistent. -/
theorem unchecked_constructor_is_inconsistent :
    isConstructor (Call.constructIdent 0x3F0) = true ∧
    pin (runCalls sampleTarget []
      (runCall sampleTarget (Call.constructIdent 0x3F0) (samplePin0, enabledMachine))).1 = 3 ∧
    sampleTarget._io_pins = 3 ∧
    ¬ Consistent sampleTarget (runCalls sampleTarget []
      (runCall sampleTarget (Call.constructIdent 0x3F0) (samplePin0, enabledMachine))).1 ∧
    isConstructor (Call.construct 5) = true ∧
    ¬ Consistent sampleTarget (runCalls sampleTarget []
      (runCall sampleTarget (Call.construct 5) (samplePin0, enabledMachine))).1 := by
  have h3 : pin (newByIdent sampleTarget 0x3F0) = 3 := by
    simp [pin, newByIdent, scanFrom, sampleTarget, pgm_read_word_near, toByte]
  refine ⟨rfl, h3, rfl, ?_, rfl, ?_⟩
  · intro hc
    have hlt : pin (newByIdent sampleTarget 0x3F0) < 3 := hc.1
    omega
  · intro hc
    have hlt : 5 < 3 := hc.1
    omega

/-- Calls that are neither a constructor nor a `setPin` leave the members as
they are. -/
theorem runCalls_keeps_members (T : Target) (cs : List Call) (s : Handle × Machine)
    (hcs : ∀ c ∈ cs, isConstructor c = false ∧ isSetPin c = false) :
    (runCalls T cs s).1 = s.1 := by
  induction cs generalizing s with
  | nil => rfl
  | cons c cs ih =>
    have hc := hcs c (List.mem_cons_self c cs)
    have hstep : (runCall T c s).1 = s.1 := by
      obtain ⟨h, m⟩ := s
      cases c with
      | construct k => simp [isConstructor] at hc
      | constructDefault => simp [isConstructor] at hc
      | constructIdent p => simp [isConstructor] at hc
      | setPin k => simp [isSetPin] at hc
      | setPinIdent p => simp [isSetPin] at hc
      | modify o => rfl
      | read => rfl
      | write val => rfl
      | pin => rfl
    show (runCalls T cs (runCall T c s)).1 = s.1
    rw [ih (runCall T c s) (fun d hd => hcs d (List.mem_cons_of_mem c hd)), hstep]

/-- After valid calls among which there is a `setPin`, the members are
consistent, whatever they were before. -/
theorem consistent_after_setPin (T : Target) (cs : List Call) (s : Handle × Machine)
    (hcs : ∀ c ∈ cs, isConstructor c = false ∧ validCall T c)
    (hset : ∃ c ∈ cs, isSetPin c = true) :
    Consistent T (runCalls T cs s).1 := by
  induction cs generalizing s with
  | nil =>
    obtain ⟨c, hc, _⟩ := hset
    exact absurd hc (List.not_mem_nil c)
  | cons c cs ih =>
    have hc := hcs c (List.mem_cons_self c cs)
    have hrest : ∀ d ∈ cs, isConstructor d = false ∧ validCall T d :=
      fun d hd => hcs d (List.mem_cons_of_mem c hd)
    show Consistent T (runCalls T cs (runCall T c s)).1
    by_cases hsc : isSetPin c = true
    · apply consistent_steps T cs _ hrest
      obtain ⟨h, m⟩ := s
      cases c with
      | setPin k => exact consistent_setPinIndex T h k hc.2
      | setPinIdent p => exact consistent_setPinIdent T h p hc.2
      | construct k => simp [isSetPin] at hsc
      | constructDefault => simp [isSetPin] at hsc
      | constructIdent p => simp [isSetPin] at hsc
      | modify o => simp [isSetPin] at hsc
      | read => simp [isSetPin] at hsc
      | write val => simp [isSetPin] at hsc
      | pin => simp [isSetPin] at hsc
    · apply ih (runCall T c s) hrest
      obtain ⟨d, hd, hds⟩ := hset
      rcases List.mem_cons.mp hd with rfl | hd'
      · exact absurd hds hsc
      · exact ⟨d, hd', hds⟩

/-- A constructor called with an argument the table does not cover leaves
members that are not consistent. -/
theorem inconsistent_constructor (T : Target) (c0 : Call) (s : Handle × Machine)
    (hc0 : isConstructor c0 = true) (hv0 : ¬ validCall T c0) :
    ¬ Consistent T (runCall T c0 s).1 := by
  obtain ⟨h, m⟩ := s
  cases c0 with
  | construct k => exact fun hc => hv0 hc.1
  | constructDefault => exact fun hc => hv0 hc.1
  | constructIdent p =>
    intro hc
    have hlt : scanFrom T p 0 < T._io_pins := hc.1
    obtain ⟨_, _, _, h4⟩ := scanFrom_spec T p 0 (Nat.zero_le _)
    exact hv0 ⟨scanFrom T p 0, hlt, h4 hlt⟩
  | setPin k => simp [isConstructor] at hc0
  | setPinIdent p => simp [isConstructor] at hc0
  | modify o => simp [isConstructor] at hc0
  | read => simp [isConstructor] at hc0
  | write val => simp [isConstructor] at hc0
  | pin => simp [isConstructor] at hc0

/-- C11, amended: in every state reached from a constructor by a sequence of
`setPin` calls with arguments the table covers (a logical index below
`_io_pins` or an identifier present in the table), interleaved with any of the
other methods, `pin()` is below `_io_pins` and `_port_adrs` and `_bit_set` are
`GPIO_REG` and `GPIO_MASK` of the table entry at `pin()`, provided the
constructor too was called with such an argument (the default 0 included) or
at least one `setPin` call follows it; in the one remaining case, a
constructor with an argument the table does not cover and no `setPin` after
it, the members are not consistent. -/
theorem binding_consistency (T : Target) (c0 : Call) (cs : List Call) (h0 : Handle)
    (m0 : Machine) (hc0 : isConstructor c0 = true)
    (hcs : ∀ c ∈ cs, isConstructor c = false ∧ validCall T c) :
    ((validCall T c0 ∨ ∃ c ∈ cs, isSetPin c = true) →
      Consistent T (runCalls T cs (runCall T c0 (h0, m0))).1) ∧
    (¬ (validCall T c0 ∨ ∃ c ∈ cs, isSetPin c = true) →
      ¬ Consistent T (runCalls T cs (runCall T c0 (h0, m0))).1) := by
  constructor
  · rintro (hv0 | hset)
    · apply consistent_steps T cs _ hcs
      cases c0 with
      | construct k => exact consistent_newByIndex T k hv0
      | constructDefault => exact consistent_newByIndex T 0 hv0
      | constructIdent p => exact consistent_newByIdent T p hv0
      | setPin k => simp [isConstructor] at hc0
      | setPinIdent p => simp [isConstructor] at hc0
      | modify o => simp [isConstructor] at hc0
      | read => simp [isConstructor] at hc0
      | write val => simp [isConstructor] at hc0
      | pin => simp [isConstructor] at hc0
    · exact consistent_after_setPin T cs _ hcs hset
  · intro hno
    have hv0 : ¬ validCall T c0 := fun hv => hno (Or.inl hv)
    have hplain : ∀ c ∈ cs, isConstructor c = false ∧ isSetPin c = false := by
      intro c hc
      refine ⟨(hcs c hc).1, ?_⟩
      cases hsc : isSetPin c
      · rfl
      · exact absurd (Or.inr ⟨c, hc, hsc⟩) hno
    rw [runCalls_keeps_members T cs _ hplain]
    exact inconsistent_constructor T c0 (h0, m0) hc0 hv0

/-- C11, instance: on `sampleTarget`, the identifier constructor called with
`0x3F0`, which is not in the table, followed by `output()`, `setPin( 1 )` and
`read()`, ends in consistent members. -/
theorem binding_consistency_witness :
    isConstructor (Call.constructIdent 0x3F0) = true ∧
    (∀ c ∈ [Call.modify Op.output, Call.setPin 1, Call.read],
      isConstructor c = false ∧ validCall sampleTarget c) ∧
    (∃ c ∈ [Call.modify Op.output, Call.setPin 1, Call.read], isSetPin c = true) ∧
    Consistent sampleTarget
      (runCalls sampleTarget [Call.modify Op.output, Call.setPin 1, Call.read]
        (runCall sampleTarget (Call.constructIdent 0x3F0) (samplePin0, enabledMachine))).1 := by
  have hcs : ∀ c ∈ [Call.modify Op.output, Call.setPin 1, Call.read],
      isConstructor c = false ∧ validCall sampleTarget c := by
    intro c hc
    simp only [List.mem_cons, List.mem_singleton, List.mem_nil_iff, or_false] at hc
    rcases hc with rfl | rfl | rfl
    · exact ⟨rfl, trivial⟩
    · refine ⟨rfl, ?_⟩
      show 1 < 3
      decide
    · exact ⟨rfl, trivial⟩
  have hset : ∃ c ∈ [Call.modify Op.output, Call.setPin 1, Call.read], isSetPin c = true :=
    ⟨Call.setPin 1, by simp, rfl⟩
  exact ⟨rfl, hcs, hset,
    (binding_consistency sampleTarget (Call.constructIdent 0x3F0) _ samplePin0 enabledMachine
      rfl hcs).1 (Or.inr hset)⟩

/-! ## The two masks -/

theorem complByte_lt (b : Nat) : complByte b < 256 := by
  unfold complByte
  omega

theorem toByte_lt (x : Nat) : toByte x < 256 := by
  unfold toByte
  omega

/-- A byte and its `complByte` are complementary masks. -/
theorem masks_of_byte (h : Handle) (x : Nat) (hs : h._bit_set = toByte x)
    (hu : h._bit_unset = complByte (toByte x)) : MasksComplementary h := by
  refine ⟨hs ▸ toByte_lt x, hu ▸ complByte_lt _, ?_⟩
  intro j hj
  rw [hu, hs, testBit_complByte]
  simp [hj]

/-- C12: after every constructor and every `setPin`, whatever the argument and
the previous members, `_bit_set` and `_bit_unset` are bytes, each of the 8 bits
of `_bit_unset` is the negation of that bit of `_bit_set`, and they add up to
255; `input`, `output`, `read`, `low`, `high`, `write`, `toggle` and `pin`
assign no member, so the masks stay as they are. -/
theorem inverse_mask_is_complement (T : Target) (h : Handle) (m : Machine) (k : Nat) :
    (∀ c ∈ [Call.construct k, Call.constructDefault, Call.constructIdent k,
        Call.setPin k, Call.setPinIdent k],
      MasksComplementary (runCall T c (h, m)).1 ∧
      (runCall T c (h, m)).1._bit_set + (runCall T c (h, m)).1._bit_unset = 255) ∧
    (∀ (o : Op) (val : Bool),
      (runCall T (Call.modify o) (h, m)).1 = h ∧ (runCall T Call.read (h, m)).1 = h ∧
      (runCall T (Call.write val) (h, m)).1 = h ∧ (runCall T Call.pin (h, m)).1 = h) := by
  refine ⟨?_, fun _ _ => ⟨rfl, rfl, rfl, rfl⟩⟩
  intro c hc
  simp only [List.mem_cons, List.mem_singleton, List.mem_nil_iff, or_false] at hc
  rcases hc with rfl | rfl | rfl | rfl | rfl
  · exact ⟨masks_of_byte _ _ rfl rfl, toByte_add_complByte _⟩
  · exact ⟨masks_of_byte _ _ rfl rfl, toByte_add_complByte _⟩
  · exact ⟨masks_of_byte _ _ rfl rfl, toByte_add_complByte _⟩
  · exact ⟨masks_of_byte _ _ rfl rfl, toByte_add_complByte _⟩
  · exact ⟨masks_of_byte _ _ rfl rfl, toByte_add_complByte _⟩

/-- C14: for every argument, both constructors (the defaulted one included)
and both `setPin` overloads, called on object `who`, leave the data memory,
`SREG` and the history of register writes as they were and leave every other
object as it was. -/
theorem binding_has_no_side_effect (T : Target) (w : World) (who : Nat) (k : Nat) :
    ∀ c ∈ [Call.construct k, Call.constructDefault, Call.constructIdent k,
        Call.setPin k, Call.setPinIdent k],
      (w.call T who c).machine.mem = w.machine.mem ∧
      (w.call T who c).machine.SREG = w.machine.SREG ∧
      (w.call T who c).machine.history = w.machine.history ∧
      ∀ other, other ≠ who → (w.call T who c).objects other = w.objects other := by
  intro c hc
  have hother : ∀ other, other ≠ who → (w.call T who c).objects other = w.objects other := by
    intro other hne
    simp [World.call, hne]
  simp only [List.mem_cons, List.mem_singleton, List.mem_nil_iff, or_false] at hc
  rcases hc with rfl | rfl | rfl | rfl | rfl
  · exact ⟨rfl, rfl, rfl, hother⟩
  · exact ⟨rfl, rfl, rfl, hother⟩
  · exact ⟨rfl, rfl, rfl, hother⟩
  · exact ⟨rfl, rfl, rfl, hother⟩
  · exact ⟨rfl, rfl, rfl, hother⟩

/-- C14, instance: on `sampleTarget` (three pins), `setPin( 7 )` on object 0
of `sampleWorld` leaves `SREG` at `0x80`, the output-state register at `0x2B`
at `0xF3`, the history empty and object 1 bound to pin 1. -/
theorem binding_has_no_side_effect_witness :
    Call.setPin 7 ∈ [Call.construct 7, Call.constructDefault, Call.constructIdent 7,
      Call.setPin 7, Call.setPinIdent 7] ∧
    (sampleWorld.call sampleTarget 0 (Call.setPin 7)).machine.SREG = 0x80 ∧
    (sampleWorld.call sampleTarget 0 (Call.setPin 7)).machine.mem 0x2B = 0xF3 ∧
    (sampleWorld.call sampleTarget 0 (Call.setPin 7)).machine.history = [] ∧
    (sampleWorld.call sampleTarget 0 (Call.setPin 7)).objects 1 = samplePin1 :=
  have hmem : Call.setPin 7 ∈ [Call.construct 7, Call.constructDefault,
      Call.constructIdent 7, Call.setPin 7, Call.setPinIdent 7] := by simp
  have hall := binding_has_no_side_effect sampleTarget sampleWorld 0 7 (Call.setPin 7) hmem
  ⟨hmem, hall.2.1, congrFun hall.1 0x2B, hall.2.2.1, hall.2.2.2 1 (by decide)⟩

/-! ## The table sizes -/

/-- C15: the initialiser lists of `FasterPinIO.cpp` have 20, 24, 70 and 12
entries for the first four families, equal to `_io_pins`; for ATtiny25/45/85
the list has 7 entries (`D0` to `D6`) while `_io_pins` is 6. -/
theorem attiny85_table_has_seven_entries :
    (Family.atmega328.pin_map_init.length = 20 ∧ Family.atmega328.io_pins = 20) ∧
    (Family.atmega32u4.pin_map_init.length = 24 ∧ Family.atmega32u4.io_pins = 24) ∧
    (Family.atmega2560.pin_map_init.length = 70 ∧ Family.atmega2560.io_pins = 70) ∧
    (Family.attiny84.pin_map_init.length = 12 ∧ Family.attiny84.io_pins = 12) ∧
    (Family.attiny85.pin_map_init.length = 7 ∧ Family.attiny85.io_pins = 6) := by
  decide

/-! ## Default construction, write and read -/

/-- C16: a default-constructed object has `pin() = 0` and its `_port_adrs`,
`_bit_set` and `_bit_unset` (indeed all members) equal those of any object on
which `setPin( 0 )` was called. -/
theorem default_is_pin_zero (T : Target) (h : Handle) (m : Machine) :
    pin (newDefault T) = 0 ∧
    (newDefault T)._port_adrs = (setPinIndex T h 0)._port_adrs ∧
    (newDefault T)._bit_set = (setPinIndex T h 0)._bit_set ∧
    (newDefault T)._bit_unset = (setPinIndex T h 0)._bit_unset ∧
    newDefault T = setPinIndex T h 0 ∧
    (runCall T Call.constructDefault (h, m)).1 = (runCall T (Call.setPin 0) (h, m)).1 :=
  ⟨rfl, rfl, rfl, rfl, rfl, rfl⟩

/-- C17: for every handle, memory content and `SREG`, `write( true )` gives
the same machine as `high()` and `write( false )` the same machine as `low()`. -/
theorem write_is_high_or_low (T : Target) (h : Handle) (m : Machine) :
    write T h true m = high T h m ∧ write T h false m = low T h m :=
  ⟨rfl, rfl⟩

theorem and_two_pow_ne_zero (v k : Nat) : (v &&& 2 ^ k ≠ 0) ↔ v.testBit k = true := by
  constructor
  · intro hne
    by_contra hbit
    apply hne
    apply Nat.eq_of_testBit_eq
    intro i
    rw [Nat.testBit_and, Nat.testBit_two_pow, Nat.zero_testBit]
    by_cases hki : k = i
    · subst hki
      simp [hbit]
    · simp [hki]
  · intro hbit hz
    have h1 : (v &&& 2 ^ k).testBit k = true := by
      rw [Nat.testBit_and, Nat.testBit_two_pow, hbit]
      simp
    rw [hz, Nat.zero_testBit] at h1
    exact Bool.false_ne_true h1

/-- C18: `read()` returns true exactly when the input-state register ANDed
with `_bit_set` is non-zero, which for a single-bit mask `2 ^ k` is bit `k` of
that register; the call leaves the machine (memory, `SREG`, history) and the
members of the object as they were. -/
theorem read_tests_input_bit (T : Target) (h : Handle) (m : Machine) :
    (read h m = true ↔ m.mem h._port_adrs &&& h._bit_set ≠ 0) ∧
    (∀ k, h._bit_set = 2 ^ k → read h m = (m.mem h._port_adrs).testBit k) ∧
    runCall T Call.read (h, m) = (h, m) := by
  refine ⟨?_, ?_, rfl⟩
  · simp [read, Handle.pinAdrs]
  · intro k hk
    have hiff := and_two_pow_ne_zero (m.mem h._port_adrs) k
    unfold read Handle.pinAdrs
    rw [hk]
    cases hb : (m.mem h._port_adrs).testBit k
    · have : ¬ (m.mem h._port_adrs &&& 2 ^ k ≠ 0) := fun hne => by
        rw [hiff.mp hne] at hb
        exact Bool.noConfusion hb
      simp [this]
    · simp [hiff.mpr hb]

/-! ## Bounds of the reverse lookup -/

/-- The reads of the scan entered at `k ≤ _io_pins` are the consecutive
positions from `k` up to the exit value of `_pin`, that position included when
it is below `_io_pins`. -/
theorem scanReads_eq_range (T : Target) (p : Nat) (k : Nat) (hk : k ≤ T._io_pins) :
    scanReads T p k = List.range' k (min (scanFrom T p k + 1) T._io_pins - k) := by
  induction k using scanFrom.induct T p with
  | case1 k hlt heq =>
    rw [scanReads, if_pos hlt, if_pos heq, scanFrom, if_pos hlt, if_pos heq]
    have : min (k + 1) T._io_pins - k = 1 := by omega
    rw [this]
    rfl
  | case2 k hlt hne ih =>
    have hb := T.io_pins_byte
    have hstep : toByte (k + 1) = k + 1 := by
      unfold toByte
      omega
    rw [scanReads, if_pos hlt, if_neg hne, scanFrom, if_pos hlt, if_neg hne]
    rw [hstep] at ih ⊢
    obtain ⟨h1, h2, _, _⟩ := scanFrom_spec T p (k + 1) (by omega)
    rw [ih (by omega)]
    have : min (scanFrom T p (k + 1) + 1) T._io_pins - k =
        (min (scanFrom T p (k + 1) + 1) T._io_pins - (k + 1)) + 1 := by omega
    rw [this, List.range'_succ]
  | case3 k hge =>
    rw [scanReads, if_neg hge, scanFrom, if_neg hge]
    have : min (k + 1) T._io_pins - k = 0 := by omega
    rw [this]
    rfl

/-- C19: for every identifier and every table (its length `_io_pins` a byte,
so at most 255), the scan of the identifier constructor and of
`setPin( BOARD::pin_t )` is a total function; it reads the table at most
`_io_pins` times, every read is at a position below `_io_pins`, the reads are
the positions 0, 1, ... in order up to the exit position, and the final
`_pin` is at most `_io_pins`. -/
theorem scan_is_bounded (T : Target) (h : Handle) (p : Nat) :
    T._io_pins ≤ 255 ∧
    (scanReads T p 0).length ≤ T._io_pins ∧
    (∀ k ∈ scanReads T p 0, k < T._io_pins) ∧
    scanReads T p 0 = List.range (min (scanFrom T p 0 + 1) T._io_pins) ∧
    pin (newByIdent T p) = scanFrom T p 0 ∧
    pin (setPinIdent T h p) = scanFrom T p 0 ∧
    pin (newByIdent T p) ≤ T._io_pins ∧
    pin (setPinIdent T h p) ≤ T._io_pins := by
  have hb := T.io_pins_byte
  have hr := scanReads_eq_range T p 0 (Nat.zero_le _)
  obtain ⟨_, hle, _, _⟩ := scanFrom_spec T p 0 (Nat.zero_le _)
  rw [Nat.sub_zero] at hr
  refine ⟨by omega, ?_, ?_, ?_, rfl, rfl, hle, hle⟩
  · rw [hr, List.length_range']
    exact Nat.min_le_right _ _
  · intro k hkmem
    rw [hr, List.mem_range'_1] at hkmem
    have := Nat.min_le_right (scanFrom T p 0 + 1) T._io_pins
    omega
  · rw [hr, List.range_eq_range']

/-! ## Operations of two handles commute -/

/-- The stored values of two operations with different single-bit masks do not
depend on the order of the operations. -/
theorem opValue_commute (h1 h2 : Handle) (i j : Nat) (hi : i < 8) (hj : j < 8) (hij : i ≠ j)
    (hs1 : h1._bit_set = 2 ^ i) (hu1 : h1._bit_unset = complByte h1._bit_set)
    (hs2 : h2._bit_set = 2 ^ j) (hu2 : h2._bit_unset = complByte h2._bit_set)
    (o1 o2 : Op) (v : Nat) :
    opValue h1 o1 (opValue h2 o2 v) = opValue h2 o2 (opValue h1 o1 v) := by
  apply Nat.eq_of_testBit_eq
  intro k
  have e1 : h1._bit_set.testBit k = decide (i = k) := by rw [hs1, Nat.testBit_two_pow]
  have e2 : h2._bit_set.testBit k = decide (j = k) := by rw [hs2, Nat.testBit_two_pow]
  have u1 : h1._bit_unset.testBit k = (decide (k < 8) && !decide (i = k)) := by
    rw [hu1, testBit_complByte, e1]
  have u2 : h2._bit_unset.testBit k = (decide (k < 8) && !decide (j = k)) := by
    rw [hu2, testBit_complByte, e2]
  cases o1 <;> cases o2 <;>
    simp only [opValue, Nat.testBit_and, Nat.testBit_or, Nat.testBit_xor, e1, e2, u1, u2] <;>
    by_cases a : i = k <;> by_cases b : j = k <;> by_cases c : k < 8 <;>
    cases v.testBit k <;> simp [a, b, c] <;> omega

/-- The memory after one of the five operations, with the exception for `SREG`
on the interrupt-disabling branch folded into the stored value. -/
theorem runOp_mem_stored (T : Target) (h : Handle) (o : Op) (m : Machine) (x : Nat) :
    (runOp T h o m).mem x =
      if x = opAdrs h o then
        (fun v => if FPIO_IS_ATOMIC T h._port_adrs = true ∨ opAdrs h o ≠ SREG_adrs
          then opValue h o v else v) (m.mem (opAdrs h o))
      else m.mem x := by
  rw [runOp_mem]
  by_cases hx : x = opAdrs h o
  · subst hx
    by_cases hL : FPIO_IS_ATOMIC T h._port_adrs = true ∨ opAdrs h o ≠ SREG_adrs
    · simp only [hL, and_self, if_true]
    · simp only [hL, and_false, if_false, if_true]
  · rw [if_neg (fun hc => hx hc.1), if_neg hx]

/-- Two assignments `*a1 = F1(*a1)` and `*a2 = F2(*a2)` whose stored values
commute give the same memory in either order. -/
theorem update_commute (a1 a2 : Nat) (F1 F2 : Nat → Nat) (hF : ∀ v, F1 (F2 v) = F2 (F1 v))
    (mem : Nat → Nat) (x : Nat) :
    (if x = a1 then F1 (if a1 = a2 then F2 (mem a2) else mem a1)
      else if x = a2 then F2 (mem a2) else mem x) =
    (if x = a2 then F2 (if a2 = a1 then F1 (mem a1) else mem a2)
      else if x = a1 then F1 (mem a1) else mem x) := by
  by_cases ha : a1 = a2
  · subst ha
    by_cases hx : x = a1
    · simp only [hx, if_true]
      exact hF _
    · simp only [if_neg hx]
  · have ha' : ¬ a2 = a1 := fun e => ha e.symm
    by_cases hx1 : x = a1
    · subst hx1
      simp only [if_true, if_neg ha]
    · by_cases hx2 : x = a2
      · subst hx2
        simp only [if_true, if_neg hx1, if_neg ha']
      · simp only [if_neg hx1, if_neg hx2]

/-- C20: for two handles on the same register group whose masks are different
single bits (each `_bit_unset` the complement of its `_bit_set`), any of
`input`, `output`, `low`, `high`, `toggle` of the one and any of them of the
other give the same memory, the whole register group included, and the same
`SREG` in either order. -/
theorem operations_commute (T : Target) (h1 h2 : Handle) (m : Machine) (i j : Nat)
    (hi : i < 8) (hj : j < 8) (hij : i ≠ j) (_hg : h1._port_adrs = h2._port_adrs)
    (hs1 : h1._bit_set = 2 ^ i) (hu1 : h1._bit_unset = complByte h1._bit_set)
    (hs2 : h2._bit_set = 2 ^ j) (hu2 : h2._bit_unset = complByte h2._bit_set)
    (o1 o2 : Op) :
    (runOp T h1 o1 (runOp T h2 o2 m)).mem = (runOp T h2 o2 (runOp T h1 o1 m)).mem ∧
    (runOp T h1 o1 (runOp T h2 o2 m)).SREG = (runOp T h2 o2 (runOp T h1 o1 m)).SREG := by
  have hF : ∀ v,
      (fun v => if FPIO_IS_ATOMIC T h1._port_adrs = true ∨ opAdrs h1 o1 ≠ SREG_adrs
        then opValue h1 o1 v else v)
        ((fun v => if FPIO_IS_ATOMIC T h2._port_adrs = true ∨ opAdrs h2 o2 ≠ SREG_adrs
          then opValue h2 o2 v else v) v) =
      (fun v => if FPIO_IS_ATOMIC T h2._port_adrs = true ∨ opAdrs h2 o2 ≠ SREG_adrs
        then opValue h2 o2 v else v)
        ((fun v => if FPIO_IS_ATOMIC T h1._port_adrs = true ∨ opAdrs h1 o1 ≠ SREG_adrs
          then opValue h1 o1 v else v) v) := by
    intro v
    by_cases hL1 : FPIO_IS_ATOMIC T h1._port_adrs = true ∨ opAdrs h1 o1 ≠ SREG_adrs
    · by_cases hL2 : FPIO_IS_ATOMIC T h2._port_adrs = true ∨ opAdrs h2 o2 ≠ SREG_adrs
      · simp only [if_pos hL1, if_pos hL2]
        exact opValue_commute h1 h2 i j hi hj hij hs1 hu1 hs2 hu2 o1 o2 v
      · simp only [if_pos hL1, if_neg hL2]
    · simp only [if_neg hL1]
  have hmem : (runOp T h1 o1 (runOp T h2 o2 m)).mem = (runOp T h2 o2 (runOp T h1 o1 m)).mem := by
    funext x
    rw [runOp_mem_stored T h1 o1, runOp_mem_stored T h2 o2 (runOp T h1 o1 m),
      runOp_mem_stored T h2 o2 m (opAdrs h1 o1), runOp_mem_stored T h2 o2 m x,
      runOp_mem_stored T h1 o1 m (opAdrs h2 o2), runOp_mem_stored T h1 o1 m x]
    exact update_commute (opAdrs h1 o1) (opAdrs h2 o2)
      (fun v => if FPIO_IS_ATOMIC T h1._port_adrs = true ∨ opAdrs h1 o1 ≠ SREG_adrs
        then opValue h1 o1 v else v)
      (fun v => if FPIO_IS_ATOMIC T h2._port_adrs = true ∨ opAdrs h2 o2 ≠ SREG_adrs
        then opValue h2 o2 v else v) hF m.mem x
  refine ⟨hmem, ?_⟩
  unfold Machine.SREG
  rw [hmem]

/-- C20, instance: on `sampleTarget`, `toggle()` of pin 0 and `low()` of pin 1,
both on the group at `0x29`, give the same memory and `SREG` in either order. -/
theorem operations_commute_witness :
    (0 < 8 ∧ 1 < 8 ∧ 0 ≠ 1 ∧ samplePin0._port_adrs = samplePin1._port_adrs ∧
      samplePin0._bit_set = 2 ^ 0 ∧ samplePin0._bit_unset = complByte samplePin0._bit_set ∧
      samplePin1._bit_set = 2 ^ 1 ∧ samplePin1._bit_unset = complByte samplePin1._bit_set) ∧
    (runOp sampleTarget samplePin0 Op.toggle
        (runOp sampleTarget samplePin1 Op.low busyMachine)).mem =
      (runOp sampleTarget samplePin1 Op.low
        (runOp sampleTarget samplePin0 Op.toggle busyMachine)).mem ∧
    (runOp sampleTarget samplePin0 Op.toggle
        (runOp sampleTarget samplePin1 Op.low busyMachine)).SREG =
      (runOp sampleTarget samplePin1 Op.low
        (runOp sampleTarget samplePin0 Op.toggle busyMachine)).SREG :=
  ⟨by decide,
    operations_commute sampleTarget samplePin0 samplePin1 busyMachine 0 1 (by decide)
      (by decide) (by decide) (by decide) (by decide) (by decide) (by decide) (by decide)
      Op.toggle Op.low⟩

end FasterPin
